import Mathlib

/-!
Shallow embedding of `src/postprocessors.rs` from the `obsidian-export`
postprocessor collection, together with proofs about the four passes
(`softbreaks_to_hardbreaks`, `filter_by_tags`, `remove_toc`,
`remove_obsidian_comments`).

Markdown events (`pulldown_cmark::Event`) are modelled by an inductive type
carrying the variants the passes inspect (`Text`, `SoftBreak`, `HardBreak`,
`Start`/`End` of a tag); all other event kinds are opaque to the passes and
are modelled by an `Other` constructor indexed by a number.  Rust `Vec`
mutation is modelled by explicit list-returning functions; each pass takes
the context and the event list and returns the new event list together with
its `PostprocessorResult`.
-/

namespace ObsidianExport

/-- The code-block kind of `pulldown_cmark::CodeBlockKind`: a fenced block
carries its info string (language label), an indented block carries none. -/
inductive CodeBlockKind where
  | Fenced (language_tag : String)
  | Indented
deriving DecidableEq

/-- The structural tag of `pulldown_cmark::Tag`.  The passes only ever match
on `Tag::CodeBlock`; every other tag kind is opaque and modelled by
`OtherTag` indexed by a number. -/
inductive Tag where
  | CodeBlock (kind : CodeBlockKind)
  | OtherTag (n : Nat)
deriving DecidableEq

/-- The event vocabulary of `pulldown_cmark::Event` as consumed by the
passes: text runs, soft/hard line breaks, paired structural markers, and
opaque remaining kinds (`Other`). -/
inductive Event where
  | Text (s : String)
  | SoftBreak
  | HardBreak
  | Start (tag : Tag)
  | End (tag : Tag)
  | Other (n : Nat)
deriving DecidableEq

/-- Modelled from the spec: `PostprocessorResult` is declared outside
`src/`; the spec names `Continue` and `StopAndSkipNote` and says a third
"stop but still emit" case is plausible in the surrounding driver, so a
`StopHere` case is included (no pass specified here returns it). -/
inductive PostprocessorResult where
  | Continue
  | StopHere
  | StopAndSkipNote
deriving DecidableEq

/-- A `serde_yaml::Value`: null, booleans, numbers, strings, sequences and
mappings.  Numbers are modelled by integers (the passes never inspect
them). -/
inductive Value where
  | VNull
  | VBool (b : Bool)
  | VNumber (n : Int)
  | VString (s : String)
  | VSequence (l : List Value)
  | VMapping (m : List (Value × Value))

/-- Equality of a `serde_yaml::Value` with `Value::String(t)`: the Rust
`tags.contains(&Value::String(tag.to_string()))` compares each element
against a `String` variant, and that comparison holds exactly when the
element is itself a `String` variant with equal content. -/
def valueEqStr : Value → String → Bool
  | .VString s, t => s == t
  | _, _ => false

/-- The document context: per-document frontmatter, a mapping from string
keys to YAML values (`context.frontmatter` in the Rust code). -/
structure Context where
  frontmatter : List (String × Value)

/-- `context.frontmatter.get(key)`: look the key up in the mapping. -/
def Context.get (context : Context) (key : String) : Option Value :=
  List.lookup key context.frontmatter

/-- The `softbreaks_to_hardbreaks` pass: the loop body rewrites an event to
`HardBreak` when it equals `SoftBreak` and leaves it unchanged otherwise. -/
def softbreakStep (event : Event) : Event :=
  if event == Event.SoftBreak then Event.HardBreak else event

/-- `softbreaks_to_hardbreaks`: converts all soft line breaks to hard line
breaks, in place, and returns `Continue`. -/
def softbreaks_to_hardbreaks (_context : Context) (events : List Event) :
    List Event × PostprocessorResult :=
  (events.map softbreakStep, PostprocessorResult.Continue)

/-- `filter_by_tags_`: decides from the document tag list and the two
configured lists whether the note is skipped.  `skip` holds when some skip
tag occurs in the document tags; `include` holds when the allow list is
empty or some allow tag occurs in the document tags. -/
def filter_by_tags_ (tags : List Value) (skip_tags only_tags : List String) :
    PostprocessorResult :=
  let skip := skip_tags.any fun tag => tags.any fun v => valueEqStr v tag
  let incl := only_tags.isEmpty ||
    only_tags.any fun tag => tags.any fun v => valueEqStr v tag
  if skip || !incl then PostprocessorResult.StopAndSkipNote
  else PostprocessorResult.Continue

/-- `filter_by_tags(skip_tags, only_tags)` applied to a context and event
list: dispatches on the shape of the frontmatter `tags` value.  Absence is
an empty tag list, a sequence is passed through, and any other shape
returns `Continue` directly.  The events are not touched. -/
def filter_by_tags (skip_tags only_tags : List String) (context : Context)
    (events : List Event) : List Event × PostprocessorResult :=
  match context.get "tags" with
  | none => (events, filter_by_tags_ [] skip_tags only_tags)
  | some (Value.VSequence tags) => (events, filter_by_tags_ tags skip_tags only_tags)
  | some _ => (events, PostprocessorResult.Continue)

/-- The loop body of `remove_toc`: push the event onto the output, then pop
it again when it is a fenced-code-block start tagged `toc` or
`table-of-contents`, or a fenced-code-block end tagged `toc` (the end
condition also tests `!= "table-of-contents"`, which is redundant). -/
def remove_toc_step (output : List Event) (event : Event) : List Event :=
  let output := output ++ [event]
  match event with
  | .Start (.CodeBlock (.Fenced language_tag)) =>
      if language_tag != "toc" && language_tag != "table-of-contents" then
        output
      else
        output.dropLast
  | .End (.CodeBlock (.Fenced language_tag)) =>
      if language_tag == "toc" && language_tag != "table-of-contents" then
        output.dropLast
      else
        output
  | _ => output

/-- `remove_toc`: single forward pass over the events building the output
with `remove_toc_step`; always returns `Continue`. -/
def remove_toc (_context : Context) (events : List Event) :
    List Event × PostprocessorResult :=
  (events.foldl remove_toc_step [], PostprocessorResult.Continue)

/-- The per-event keep decision `remove_toc` implements: a fenced start is
kept unless labeled `toc` or `table-of-contents`; a fenced end is kept
unless labeled `toc`; everything else is kept. -/
def tocKeep : Event → Bool
  | .Start (.CodeBlock (.Fenced language_tag)) =>
      language_tag != "toc" && language_tag != "table-of-contents"
  | .End (.CodeBlock (.Fenced language_tag)) =>
      !(language_tag == "toc" && language_tag != "table-of-contents")
  | _ => true

/-- `text.contains("%%")` on the character list of the text: two adjacent
percent characters occur somewhere. -/
def hasMarkerChars : List Char → Bool
  | '%' :: '%' :: _ => true
  | _ :: rest => hasMarkerChars rest
  | [] => false

/-- `text.contains("%%")`. -/
def hasMarker (s : String) : Bool :=
  hasMarkerChars s.data

/-- Scanning for the closing `%%` of a comment span already opened by the
regex `%%.*?%%`: returns the remainder after the first adjacent `%%`, and
fails when a newline intervenes first (`.` in the `regex` crate does not
match a newline) or the list ends. -/
def findClose : List Char → Option (List Char)
  | '%' :: '%' :: rest => some rest
  | '\n' :: _ => none
  | _ :: rest => findClose rest
  | [] => none

/-- The scanning loop of `Regex::new(r"%%.*?%%").unwrap().replace_all(text,
"")` on the character list of the text: each leftmost, non-greedy
`%%...%%` match (with no newline inside, since `.` does not cross lines) is
deleted and scanning resumes after it; an opening `%%` with no reachable
close is kept verbatim, as are all other characters.  The fuel parameter
only bounds the recursion; every step consumes at least one character, so a
fuel of the list length never runs out. -/
def removeSpansGo : Nat → List Char → List Char
  | _, [] => []
  | 0, l => l
  | fuel + 1, '%' :: '%' :: rest =>
      match findClose rest with
      | some rest2 => removeSpansGo fuel rest2
      | none => '%' :: '%' :: removeSpansGo fuel rest
  | fuel + 1, c :: rest => c :: removeSpansGo fuel rest

/-- The regex replacement on a character list, with enough fuel. -/
def removeCommentSpans (l : List Char) : List Char :=
  removeSpansGo l.length l

/-- The regex replacement applied to a string. -/
def stripSpans (s : String) : String :=
  String.mk (removeCommentSpans s.data)

/-- The loop state of `remove_obsidian_comments`: the output vector built
so far and the two booleans threaded through the loop. -/
structure CommentLoopState where
  output : List Event
  inside_comment : Bool
  inside_codeblock : Bool
deriving DecidableEq

/-- The loop body of `remove_obsidian_comments`: push the event, then for a
text event branch on marker presence, `inside_codeblock`, `inside_comment`
and whether the text is exactly `%%` (popping, rewriting via the regex or
toggling `inside_comment` accordingly); code-block start/end markers flip
`inside_codeblock` and stay pushed; any other event is popped again when
`inside_comment` holds. -/
def remove_obsidian_comments_step (st : CommentLoopState) (event : Event) :
    CommentLoopState :=
  let st := { st with output := st.output ++ [event] }
  match event with
  | .Text text =>
      if !(hasMarker text) then
        if st.inside_comment then { st with output := st.output.dropLast } else st
      else if st.inside_codeblock then st
      else
        let st := { st with output := st.output.dropLast }
        if st.inside_comment then { st with inside_comment := false }
        else if !(text == "%%") then
          { st with output := st.output ++ [Event.Text (stripSpans text)] }
        else { st with inside_comment := true }
  | .Start (.CodeBlock _) => { st with inside_codeblock := true }
  | .End (.CodeBlock _) => { st with inside_codeblock := false }
  | _ => if st.inside_comment then { st with output := st.output.dropLast } else st

/-- `remove_obsidian_comments`: fold the loop body over the events starting
from empty output with both flags false; always returns `Continue`. -/
def remove_obsidian_comments (_context : Context) (events : List Event) :
    List Event × PostprocessorResult :=
  let st := events.foldl remove_obsidian_comments_step ⟨[], false, false⟩
  (st.output, PostprocessorResult.Continue)

/-- The events one loop iteration of `remove_obsidian_comments` contributes
to the output, as a function of the two flags and the event. -/
def commentKeep (ic cb : Bool) (e : Event) : List Event :=
  match e with
  | .Text text =>
      if !(hasMarker text) then (if ic then [] else [e])
      else if cb then [e]
      else if ic then []
      else if !(text == "%%") then [Event.Text (stripSpans text)]
      else []
  | .Start (.CodeBlock _) => [e]
  | .End (.CodeBlock _) => [e]
  | _ => if ic then [] else [e]

/-- The flag pair after one loop iteration of `remove_obsidian_comments`. -/
def commentNext (ic cb : Bool) (e : Event) : Bool × Bool :=
  match e with
  | .Text text =>
      if !(hasMarker text) then (ic, cb)
      else if cb then (ic, cb)
      else if ic then (false, cb)
      else if !(text == "%%") then (ic, cb)
      else (true, cb)
  | .Start (.CodeBlock _) => (ic, true)
  | .End (.CodeBlock _) => (ic, false)
  | _ => (ic, cb)

/-- The output `remove_obsidian_comments` produces from a given flag pair
onwards. -/
def processFrom (ic cb : Bool) : List Event → List Event
  | [] => []
  | e :: rest =>
      commentKeep ic cb e ++
        processFrom (commentNext ic cb e).1 (commentNext ic cb e).2 rest

/-- The flag pair after `remove_obsidian_comments` has consumed a list of
events from a given flag pair. -/
def flagsAfter (ic cb : Bool) : List Event → Bool × Bool
  | [] => (ic, cb)
  | e :: rest => flagsAfter (commentNext ic cb e).1 (commentNext ic cb e).2 rest

/-- An event that, while a comment is open and regardless of the code-block
flag, is dropped by the comment stripper without changing either flag:
any event other than a code-block start/end marker or a text containing
the `%%` marker. -/
def commentInert : Event → Bool
  | .Text t => !(hasMarker t)
  | .Start (.CodeBlock _) => false
  | .End (.CodeBlock _) => false
  | _ => true

/-- Stack-based bracket matching of `Start`/`End` markers: every `Start`
must be closed by the next unmatched `End`, with the same tag. -/
def balancedAux : List Tag → List Event → Bool
  | stk, [] => stk.isEmpty
  | stk, Event.Start t :: rest => balancedAux (t :: stk) rest
  | [], Event.End _ :: _ => false
  | t :: stk, Event.End u :: rest => t == u && balancedAux stk rest
  | stk, _ :: rest => balancedAux stk rest

/-- An event sequence whose `Start`/`End` markers are bracket-matched. -/
def balanced (events : List Event) : Bool :=
  balancedAux [] events

/-- `KeepsInOrder out inp`: the sequence `out` is obtained from `inp` by a
single forward pass that keeps each event, drops it, or (for a text event)
rewrites its text in place — so kept events appear in their original
relative order and nothing is reordered or inserted out of place. -/
inductive KeepsInOrder : List Event → List Event → Prop where
  | nil : KeepsInOrder [] []
  | drop (e : Event) {out rest : List Event} :
      KeepsInOrder out rest → KeepsInOrder out (e :: rest)
  | keep (e : Event) {out rest : List Event} :
      KeepsInOrder out rest → KeepsInOrder (e :: out) (e :: rest)
  | rewrite (s t : String) {out rest : List Event} :
      KeepsInOrder out rest → KeepsInOrder (Event.Text s :: out) (Event.Text t :: rest)

theorem dropLast_push {α : Type} (l : List α) (e : α) :
    (l ++ [e]).dropLast = l := by
  simp

theorem remove_toc_step_eq (output : List Event) (event : Event) :
    remove_toc_step output event =
      output ++ (if tocKeep event then [event] else []) := by
  cases event with
  | Start tag =>
      cases tag with
      | CodeBlock kind =>
          cases kind with
          | Fenced language_tag =>
              by_cases h : language_tag != "toc" && language_tag != "table-of-contents" <;>
                simp [remove_toc_step, tocKeep, h]
          | Indented => simp [remove_toc_step, tocKeep]
      | OtherTag n => simp [remove_toc_step, tocKeep]
  | End tag =>
      cases tag with
      | CodeBlock kind =>
          cases kind with
          | Fenced language_tag =>
              by_cases h : language_tag == "toc" && language_tag != "table-of-contents" <;>
                simp [remove_toc_step, tocKeep, h]
          | Indented => simp [remove_toc_step, tocKeep]
      | OtherTag n => simp [remove_toc_step, tocKeep]
  | Text s => simp [remove_toc_step, tocKeep]
  | SoftBreak => simp [remove_toc_step, tocKeep]
  | HardBreak => simp [remove_toc_step, tocKeep]
  | Other n => simp [remove_toc_step, tocKeep]

theorem remove_toc_foldl (events : List Event) (output : List Event) :
    events.foldl remove_toc_step output = output ++ events.filter tocKeep := by
  induction events generalizing output with
  | nil => simp
  | cons e rest ih =>
      rw [List.foldl_cons, remove_toc_step_eq, ih]
      by_cases h : tocKeep e <;> simp [h]

theorem remove_toc_eq_filter (context : Context) (events : List Event) :
    remove_toc context events =
      (events.filter tocKeep, PostprocessorResult.Continue) := by
  simp [remove_toc, remove_toc_foldl]

theorem remove_obsidian_comments_step_eq (st : CommentLoopState) (e : Event) :
    remove_obsidian_comments_step st e =
      ⟨st.output ++ commentKeep st.inside_comment st.inside_codeblock e,
       (commentNext st.inside_comment st.inside_codeblock e).1,
       (commentNext st.inside_comment st.inside_codeblock e).2⟩ := by
  obtain ⟨out, ic, cb⟩ := st
  cases e with
  | Text text =>
      by_cases hm : hasMarker text <;> cases ic <;> cases cb <;>
        by_cases he : text == "%%" <;>
          simp [remove_obsidian_comments_step, commentKeep, commentNext, hm, he]
  | Start tag =>
      cases tag with
      | CodeBlock kind =>
          simp [remove_obsidian_comments_step, commentKeep, commentNext]
      | OtherTag n =>
          cases ic <;>
            simp [remove_obsidian_comments_step, commentKeep, commentNext]
  | End tag =>
      cases tag with
      | CodeBlock kind =>
          simp [remove_obsidian_comments_step, commentKeep, commentNext]
      | OtherTag n =>
          cases ic <;>
            simp [remove_obsidian_comments_step, commentKeep, commentNext]
  | SoftBreak =>
      cases ic <;> simp [remove_obsidian_comments_step, commentKeep, commentNext]
  | HardBreak =>
      cases ic <;> simp [remove_obsidian_comments_step, commentKeep, commentNext]
  | Other n =>
      cases ic <;> simp [remove_obsidian_comments_step, commentKeep, commentNext]

theorem comments_foldl (events : List Event) (st : CommentLoopState) :
    events.foldl remove_obsidian_comments_step st =
      ⟨st.output ++ processFrom st.inside_comment st.inside_codeblock events,
       (flagsAfter st.inside_comment st.inside_codeblock events).1,
       (flagsAfter st.inside_comment st.inside_codeblock events).2⟩ := by
  induction events generalizing st with
  | nil => simp [processFrom, flagsAfter]
  | cons e rest ih =>
      rw [List.foldl_cons, remove_obsidian_comments_step_eq, ih]
      simp [processFrom, flagsAfter]

theorem remove_obsidian_comments_eq (context : Context) (events : List Event) :
    remove_obsidian_comments context events =
      (processFrom false false events, PostprocessorResult.Continue) := by
  simp [remove_obsidian_comments, comments_foldl]

theorem valueEqStr_eq (v : Value) (t : String) :
    valueEqStr v t = true ↔ v = Value.VString t := by
  cases v <;> simp [valueEqStr]

theorem any_valueEqStr (T : List Value) (L : List String) :
    (L.any fun tag => T.any fun v => valueEqStr v tag) = true ↔
      ∃ s ∈ L, Value.VString s ∈ T := by
  simp only [List.any_eq_true]
  constructor
  · rintro ⟨s, hs, v, hv, hveq⟩
    exact ⟨s, hs, by rwa [(valueEqStr_eq v s).mp hveq] at hv⟩
  · rintro ⟨s, hs, hv⟩
    exact ⟨s, hs, Value.VString s, hv, by simp [valueEqStr]⟩

theorem filter_by_tags__stop_iff (T : List Value) (S A : List String) :
    filter_by_tags_ T S A = PostprocessorResult.StopAndSkipNote ↔
      (∃ s ∈ S, Value.VString s ∈ T) ∨
      (A ≠ [] ∧ ∀ a ∈ A, Value.VString a ∉ T) := by
  have hS := any_valueEqStr T S
  have hA := any_valueEqStr T A
  have hstop : ∀ c : Bool,
      ((if c = true then PostprocessorResult.StopAndSkipNote
        else PostprocessorResult.Continue) =
          PostprocessorResult.StopAndSkipNote) ↔ c = true := by
    intro c
    cases c <;> simp
  simp only [filter_by_tags_, hstop]
  constructor
  · intro h
    cases hs : (S.any fun tag => T.any fun v => valueEqStr v tag) with
    | true => exact Or.inl (hS.mp hs)
    | false =>
        refine Or.inr ?_
        rw [hs] at h
        cases hA1 : A.isEmpty with
        | true =>
            rw [hA1] at h
            simp at h
        | false =>
            cases hA2 : (A.any fun tag => T.any fun v => valueEqStr v tag) with
            | true =>
                rw [hA1, hA2] at h
                simp at h
            | false =>
                refine ⟨?_, ?_⟩
                · intro hnil
                  rw [hnil] at hA1
                  simp at hA1
                · intro a ha hmem
                  have := hA.mpr ⟨a, ha, hmem⟩
                  rw [this] at hA2
                  exact absurd hA2 (by simp)
  · rintro (hskip | ⟨hAne, hall⟩)
    · rw [hS.mpr hskip]
      rfl
    · have h1 : A.isEmpty = false := by
        cases A with
        | nil => exact absurd rfl hAne
        | cons a l => rfl
      have h2 : (A.any fun tag => T.any fun v => valueEqStr v tag) = false := by
        cases hx : (A.any fun tag => T.any fun v => valueEqStr v tag) with
        | false => rfl
        | true =>
            obtain ⟨a, ha, hmem⟩ := hA.mp hx
            exact absurd hmem (hall a ha)
      rw [h1, h2]
      simp

theorem filter_by_tags__not_stop (T : List Value) (S A : List String)
    (h : filter_by_tags_ T S A ≠ PostprocessorResult.StopAndSkipNote) :
    filter_by_tags_ T S A = PostprocessorResult.Continue := by
  cases hfb : filter_by_tags_ T S A with
  | Continue => rfl
  | StopHere =>
      exfalso
      revert hfb
      simp only [filter_by_tags_]
      split <;> intro hfb <;> exact PostprocessorResult.noConfusion hfb
  | StopAndSkipNote => exact absurd hfb h

theorem processFrom_keepsInOrder (events : List Event) :
    ∀ ic cb, KeepsInOrder (processFrom ic cb events) events := by
  induction events with
  | nil =>
      intro ic cb
      exact KeepsInOrder.nil
  | cons e rest ih =>
      intro ic cb
      rw [processFrom]
      cases e with
      | Text t =>
          by_cases hm : hasMarker t <;> cases ic <;> cases cb <;>
            by_cases he : t == "%%" <;>
              simp only [commentKeep, commentNext, hm, he, Bool.not_true,
                Bool.not_false, if_true, if_false, List.nil_append,
                List.cons_append, List.append_nil, Bool.false_eq_true,
                ite_true, ite_false] <;>
                first
                | exact KeepsInOrder.keep _ (ih _ _)
                | exact KeepsInOrder.drop _ (ih _ _)
                | exact KeepsInOrder.rewrite _ _ (ih _ _)
      | Start tag =>
          cases tag with
          | CodeBlock kind =>
              simp only [commentKeep, commentNext, List.cons_append,
                List.nil_append]
              exact KeepsInOrder.keep _ (ih _ _)
          | OtherTag n =>
              cases ic <;>
                simp only [commentKeep, commentNext, List.cons_append,
                  List.nil_append, ite_true, ite_false] <;>
                  first
                  | exact KeepsInOrder.keep _ (ih _ _)
                  | exact KeepsInOrder.drop _ (ih _ _)
      | End tag =>
          cases tag with
          | CodeBlock kind =>
              simp only [commentKeep, commentNext, List.cons_append,
                List.nil_append]
              exact KeepsInOrder.keep _ (ih _ _)
          | OtherTag n =>
              cases ic <;>
                simp only [commentKeep, commentNext, List.cons_append,
                  List.nil_append, ite_true, ite_false] <;>
                  first
                  | exact KeepsInOrder.keep _ (ih _ _)
                  | exact KeepsInOrder.drop _ (ih _ _)
      | SoftBreak =>
          cases ic <;>
            simp only [commentKeep, commentNext, List.cons_append,
              List.nil_append, ite_true, ite_false] <;>
              first
              | exact KeepsInOrder.keep _ (ih _ _)
              | exact KeepsInOrder.drop _ (ih _ _)
      | HardBreak =>
          cases ic <;>
            simp only [commentKeep, commentNext, List.cons_append,
              List.nil_append, ite_true, ite_false] <;>
              first
              | exact KeepsInOrder.keep _ (ih _ _)
              | exact KeepsInOrder.drop _ (ih _ _)
      | Other n =>
          cases ic <;>
            simp only [commentKeep, commentNext, List.cons_append,
              List.nil_append, ite_true, ite_false] <;>
              first
              | exact KeepsInOrder.keep _ (ih _ _)
              | exact KeepsInOrder.drop _ (ih _ _)

theorem balancedAux_map_softbreakStep (events : List Event) :
    ∀ stk : List Tag,
      balancedAux stk (events.map softbreakStep) = balancedAux stk events := by
  induction events with
  | nil =>
      intro stk
      rfl
  | cons e rest ih =>
      intro stk
      cases e with
      | Text t => simp [softbreakStep, balancedAux, ih]
      | SoftBreak => simp [softbreakStep, balancedAux, ih]
      | HardBreak => simp [softbreakStep, balancedAux, ih]
      | Start tag => simp [softbreakStep, balancedAux, ih]
      | End tag =>
          cases stk with
          | nil => simp [softbreakStep, balancedAux]
          | cons t stk' => simp [softbreakStep, balancedAux, ih]
      | Other n => simp [softbreakStep, balancedAux, ih]

theorem count_map_softbreakStep_soft (events : List Event) :
    (events.map softbreakStep).count Event.SoftBreak = 0 := by
  induction events with
  | nil => rfl
  | cons e rest ih =>
      rw [List.map_cons, List.count_cons, ih]
      cases e <;> simp [softbreakStep]

theorem count_map_softbreakStep_hard (events : List Event) :
    (events.map softbreakStep).count Event.HardBreak =
      events.count Event.SoftBreak + events.count Event.HardBreak := by
  induction events with
  | nil => rfl
  | cons e rest ih =>
      rw [List.map_cons, List.count_cons, List.count_cons, List.count_cons, ih]
      cases e <;> simp [softbreakStep] <;> omega

theorem softbreakStep_idem (e : Event) :
    softbreakStep (softbreakStep e) = softbreakStep e := by
  cases e <;> simp [softbreakStep]

theorem processFrom_inert (events : List Event)
    (h : ∀ e ∈ events, commentInert e = true) :
    ∀ cb, processFrom true cb events = [] := by
  induction events with
  | nil =>
      intro cb
      rfl
  | cons e rest ih =>
      intro cb
      have he := h e (List.mem_cons_self e rest)
      have hrest : ∀ x ∈ rest, commentInert x = true := fun x hx =>
        h x (List.mem_cons_of_mem e hx)
      rw [processFrom]
      cases e with
      | Text t =>
          simp only [commentInert, Bool.not_eq_true'] at he
          simp [commentKeep, commentNext, he, ih hrest cb]
      | Start tag =>
          cases tag with
          | CodeBlock kind => simp [commentInert] at he
          | OtherTag n => simp [commentKeep, commentNext, ih hrest cb]
      | End tag =>
          cases tag with
          | CodeBlock kind => simp [commentInert] at he
          | OtherTag n => simp [commentKeep, commentNext, ih hrest cb]
      | SoftBreak => simp [commentKeep, commentNext, ih hrest cb]
      | HardBreak => simp [commentKeep, commentNext, ih hrest cb]
      | Other n => simp [commentKeep, commentNext, ih hrest cb]

/-- C1: for a document tag set obtained from a frontmatter `tags` sequence
(or the empty set when `tags` is absent), and any skip list and allow
list, the configured tag filter returns `StopAndSkipNote` iff the tags
intersect the skip list, or the allow list is non-empty and the tags do
not intersect it; otherwise it returns `Continue`; a tag in both lists
forces `StopAndSkipNote` (skip wins). -/
theorem filter_by_tags_spec (T : List Value) (S A : List String)
    (context : Context) (events : List Event)
    (hT : context.get "tags" = some (Value.VSequence T) ∨
      (context.get "tags" = none ∧ T = [])) :
    filter_by_tags S A context events = (events, filter_by_tags_ T S A) ∧
    (filter_by_tags_ T S A = PostprocessorResult.StopAndSkipNote ↔
      (∃ s ∈ S, Value.VString s ∈ T) ∨
      (A ≠ [] ∧ ∀ a ∈ A, Value.VString a ∉ T)) ∧
    (filter_by_tags_ T S A ≠ PostprocessorResult.StopAndSkipNote →
      filter_by_tags_ T S A = PostprocessorResult.Continue) ∧
    (∀ t, t ∈ S → t ∈ A → Value.VString t ∈ T →
      filter_by_tags_ T S A = PostprocessorResult.StopAndSkipNote) := by
  refine ⟨?_, filter_by_tags__stop_iff T S A, filter_by_tags__not_stop T S A, ?_⟩
  · rcases hT with h | ⟨h, hT0⟩
    · simp [filter_by_tags, h]
    · subst hT0
      simp [filter_by_tags, h]
  · intro t htS _htA hmem
    exact (filter_by_tags__stop_iff T S A).mpr (Or.inl ⟨t, htS, hmem⟩)

/-- Witness for C1: a tags sequence containing `skip`, with `skip` in both
the skip list and the allow list — the note is skipped (skip wins). -/
theorem filter_by_tags_spec_witness :
    Context.get ⟨[("tags", Value.VSequence [Value.VString "skip"])]⟩ "tags" =
      some (Value.VSequence [Value.VString "skip"]) ∧
    filter_by_tags ["skip"] ["skip"]
        ⟨[("tags", Value.VSequence [Value.VString "skip"])]⟩ [] =
      ([], filter_by_tags_ [Value.VString "skip"] ["skip"] ["skip"]) ∧
    filter_by_tags_ [Value.VString "skip"] ["skip"] ["skip"] =
      PostprocessorResult.StopAndSkipNote := by
  refine ⟨rfl, ?_, ?_⟩
  · exact (filter_by_tags_spec [Value.VString "skip"] ["skip"] ["skip"]
      ⟨[("tags", Value.VSequence [Value.VString "skip"])]⟩ [] (Or.inl rfl)).1
  · exact (filter_by_tags_spec [Value.VString "skip"] ["skip"] ["skip"]
      ⟨[("tags", Value.VSequence [Value.VString "skip"])]⟩ [] (Or.inl rfl)).2.2.2
      "skip" (by simp) (by simp) (by simp)

/-- C2 counterexample: with allow list `[include]`, a document whose
frontmatter `tags` is the scalar string `note` yields `Continue`, while a
document with no `tags` key yields `StopAndSkipNote` — a scalar `tags` is
not treated identically to an absent one. -/
theorem filter_by_tags_nonsequence_cex :
    (filter_by_tags [] ["include"] ⟨[("tags", Value.VString "note")]⟩ []).2 =
      PostprocessorResult.Continue ∧
    (filter_by_tags [] ["include"] ⟨[]⟩ []).2 =
      PostprocessorResult.StopAndSkipNote :=
  ⟨rfl, rfl⟩

/-- C2 (amended): when the frontmatter `tags` value has any shape other
than a sequence, the configured tag filter returns `Continue`
unconditionally — never an error, and the note is never skipped; this
coincides with the absent-`tags` behavior exactly when the allow list is
empty. -/
theorem filter_by_tags_nonsequence_spec (S A : List String) (context : Context)
    (events : List Event) (v : Value)
    (hv : context.get "tags" = some v)
    (hns : ∀ l, v ≠ Value.VSequence l) :
    filter_by_tags S A context events = (events, PostprocessorResult.Continue) ∧
    (A = [] →
      filter_by_tags S A context events = filter_by_tags S A ⟨[]⟩ events) := by
  have h1 : filter_by_tags S A context events =
      (events, PostprocessorResult.Continue) := by
    cases v with
    | VSequence l => exact absurd rfl (hns l)
    | VNull => simp [filter_by_tags, hv]
    | VBool b => simp [filter_by_tags, hv]
    | VNumber n => simp [filter_by_tags, hv]
    | VString s => simp [filter_by_tags, hv]
    | VMapping m => simp [filter_by_tags, hv]
  refine ⟨h1, ?_⟩
  intro hA
  subst hA
  rw [h1]
  have h2 : filter_by_tags_ [] S [] = PostprocessorResult.Continue := by
    apply filter_by_tags__not_stop
    intro hc
    rcases (filter_by_tags__stop_iff [] S []).mp hc with ⟨s, _hs, hmem⟩ | ⟨hne, _⟩
    · simp at hmem
    · exact hne rfl
  simp [filter_by_tags, Context.get, h2]

/-- Witness for C2 (amended): scalar `tags` with non-empty skip and allow
lists still yields `Continue`. -/
theorem filter_by_tags_nonsequence_spec_witness :
    Context.get ⟨[("tags", Value.VString "note")]⟩ "tags" =
      some (Value.VString "note") ∧
    filter_by_tags ["skip"] ["include"] ⟨[("tags", Value.VString "note")]⟩ [] =
      ([], PostprocessorResult.Continue) := by
  refine ⟨rfl, ?_⟩
  exact (filter_by_tags_nonsequence_spec ["skip"] ["include"]
    ⟨[("tags", Value.VString "note")]⟩ [] (Value.VString "note") rfl
    (fun l h => Value.noConfusion h)).1

/-- C3: remove_toc is a single forward pass keeping every event by
default: it filters the events with `tocKeep` (preserving relative order)
and returns `Continue`; `tocKeep` drops a fenced-code-block Start labeled
exactly `toc` or exactly `table-of-contents` and a fenced-code-block End
labeled exactly `toc`, keeps an End labeled `table-of-contents` (leaving a
dangling End marker), and keeps every other event. -/
theorem remove_toc_spec (context : Context) (events : List Event) (l : String) :
    remove_toc context events =
      (events.filter tocKeep, PostprocessorResult.Continue) ∧
    tocKeep (Event.Start (Tag.CodeBlock (CodeBlockKind.Fenced "toc"))) = false ∧
    tocKeep (Event.Start (Tag.CodeBlock (CodeBlockKind.Fenced "table-of-contents"))) = false ∧
    tocKeep (Event.End (Tag.CodeBlock (CodeBlockKind.Fenced "toc"))) = false ∧
    tocKeep (Event.End (Tag.CodeBlock (CodeBlockKind.Fenced "table-of-contents"))) = true ∧
    (l ≠ "toc" → l ≠ "table-of-contents" →
      tocKeep (Event.Start (Tag.CodeBlock (CodeBlockKind.Fenced l))) = true ∧
      tocKeep (Event.End (Tag.CodeBlock (CodeBlockKind.Fenced l))) = true) ∧
    (∀ e : Event, (∀ kind, e ≠ Event.Start (Tag.CodeBlock kind)) →
      (∀ kind, e ≠ Event.End (Tag.CodeBlock kind)) → tocKeep e = true) := by
  refine ⟨remove_toc_eq_filter context events, by decide, by decide, by decide,
    by decide, ?_, ?_⟩
  · intro h1 h2
    constructor <;> simp [tocKeep, h1, h2]
  · intro e hS hE
    cases e with
    | Start tag =>
        cases tag with
        | CodeBlock kind => exact absurd rfl (hS kind)
        | OtherTag n => rfl
    | End tag =>
        cases tag with
        | CodeBlock kind => exact absurd rfl (hE kind)
        | OtherTag n => rfl
    | Text t => rfl
    | SoftBreak => rfl
    | HardBreak => rfl
    | Other n => rfl

/-- Witness for C3: an unrelated fence label is kept, and the pass applied
to the empty sequence yields the empty sequence with `Continue`. -/
theorem remove_toc_spec_witness :
    ("rust" ≠ "toc") ∧ ("rust" ≠ "table-of-contents") ∧
    remove_toc ⟨[]⟩ [] = ([], PostprocessorResult.Continue) ∧
    tocKeep (Event.Start (Tag.CodeBlock (CodeBlockKind.Fenced "rust"))) = true := by
  refine ⟨by decide, by decide, ?_, ?_⟩
  · exact (remove_toc_spec ⟨[]⟩ [] "rust").1
  · exact ((remove_toc_spec ⟨[]⟩ [] "rust").2.2.2.2.2.1 (by decide) (by decide)).1

/-- C4 counterexample: after a comment opens, a fenced code-block Start
marker is kept in the output (its branch only flips `inside_codeblock` and
never pops), so the claimed all-dropped output `[]` is wrong here. -/
theorem remove_obsidian_comments_fence_in_comment_cex :
    (remove_obsidian_comments ⟨[]⟩
      [Event.Text "%%",
       Event.Start (Tag.CodeBlock (CodeBlockKind.Fenced "rust"))]).1 =
      [Event.Start (Tag.CodeBlock (CodeBlockKind.Fenced "rust"))] ∧
    [Event.Start (Tag.CodeBlock (CodeBlockKind.Fenced "rust"))] ≠
      ([] : List Event) :=
  ⟨by decide, by decide⟩

/-- C4 (amended): once a comment has been opened by a standalone `%%` text
event outside a code block, every subsequent event is dropped except
code-block Start/End markers — which are kept while flipping
`inside_codeblock` — and marker-bearing text events seen inside a code
block, which are kept with the comment staying open; a marker-bearing
text event seen outside a code block closes the comment and is itself
dropped; when only inert events follow (no fences, no marker texts), the
whole remainder is dropped and the output ends where the comment
opened. -/
theorem remove_obsidian_comments_open_comment_spec (context : Context)
    (cb : Bool) (t : String) (k : CodeBlockKind) (n : Nat) (evs : List Event) :
    (hasMarker t = false →
      processFrom true cb (Event.Text t :: evs) = processFrom true cb evs) ∧
    (hasMarker t = true →
      processFrom true true (Event.Text t :: evs) =
        Event.Text t :: processFrom true true evs) ∧
    (hasMarker t = true →
      processFrom true false (Event.Text t :: evs) = processFrom false false evs) ∧
    (processFrom true cb (Event.Start (Tag.CodeBlock k) :: evs) =
      Event.Start (Tag.CodeBlock k) :: processFrom true true evs) ∧
    (processFrom true cb (Event.End (Tag.CodeBlock k) :: evs) =
      Event.End (Tag.CodeBlock k) :: processFrom true false evs) ∧
    (processFrom true cb (Event.SoftBreak :: evs) = processFrom true cb evs) ∧
    (processFrom true cb (Event.HardBreak :: evs) = processFrom true cb evs) ∧
    (processFrom true cb (Event.Start (Tag.OtherTag n) :: evs) =
      processFrom true cb evs) ∧
    (processFrom true cb (Event.End (Tag.OtherTag n) :: evs) =
      processFrom true cb evs) ∧
    (processFrom true cb (Event.Other n :: evs) = processFrom true cb evs) ∧
    (remove_obsidian_comments context (Event.Text "%%" :: evs) =
      (processFrom true false evs, PostprocessorResult.Continue)) ∧
    ((∀ e ∈ evs, commentInert e = true) →
      remove_obsidian_comments context (Event.Text "%%" :: evs) =
        ([], PostprocessorResult.Continue)) := by
  have hm : hasMarker "%%" = true := by decide
  refine ⟨?_, ?_, ?_, ?_, ?_, ?_, ?_, ?_, ?_, ?_, ?_, ?_⟩
  · intro h
    rw [processFrom]
    simp [commentKeep, commentNext, h]
  · intro h
    rw [processFrom]
    simp [commentKeep, commentNext, h]
  · intro h
    rw [processFrom]
    simp [commentKeep, commentNext, h]
  · rw [processFrom]
    simp [commentKeep, commentNext]
  · rw [processFrom]
    simp [commentKeep, commentNext]
  · rw [processFrom]
    simp [commentKeep, commentNext]
  · rw [processFrom]
    simp [commentKeep, commentNext]
  · rw [processFrom]
    simp [commentKeep, commentNext]
  · rw [processFrom]
    simp [commentKeep, commentNext]
  · rw [processFrom]
    simp [commentKeep, commentNext]
  · rw [remove_obsidian_comments_eq, processFrom]
    simp [commentKeep, commentNext, hm]
  · intro h
    rw [remove_obsidian_comments_eq, processFrom]
    simp [commentKeep, commentNext, hm]
    exact processFrom_inert evs h false

/-- Witness for C4 (amended): a marker-free text after the opener is
dropped, and a fully inert tail is wiped out entirely. -/
theorem remove_obsidian_comments_open_comment_spec_witness :
    hasMarker "plain" = false ∧
    (∀ e ∈ [Event.SoftBreak, Event.Text "hidden"], commentInert e = true) ∧
    remove_obsidian_comments ⟨[]⟩
        (Event.Text "%%" :: [Event.SoftBreak, Event.Text "hidden"]) =
      ([], PostprocessorResult.Continue) := by
  refine ⟨by decide, by decide, ?_⟩
  exact (remove_obsidian_comments_open_comment_spec ⟨[]⟩ false "plain"
    (CodeBlockKind.Fenced "rust") 0
    [Event.SoftBreak, Event.Text "hidden"]).2.2.2.2.2.2.2.2.2.2.2 (by decide)

/-- C5 counterexample: the space before the removed `%%secret%%` span
survives the regex replacement, so the output text is `before after`, not
the claimed `beforeafter`. -/
theorem remove_obsidian_comments_inline_cex :
    (remove_obsidian_comments ⟨[]⟩ [Event.Text "before %%secret%%after"]).1 =
      [Event.Text "before after"] ∧
    ([Event.Text "before after"] : List Event) ≠ [Event.Text "beforeafter"] :=
  ⟨by decide, by decide⟩

/-- C5 (amended): a text event containing the marker but not exactly the
marker, processed outside a code block with no comment open, has every
non-greedy marker-to-marker span removed and the shortened text event is
kept, with the comment flag staying closed; the single-event input
`before %%secret%%after` produces the single-event output `before after`
(the space before the span survives). -/
theorem remove_obsidian_comments_inline_spec (context : Context) (t : String)
    (evs : List Event) (h1 : hasMarker t = true) (h2 : (t == "%%") = false) :
    processFrom false false (Event.Text t :: evs) =
      Event.Text (stripSpans t) :: processFrom false false evs ∧
    commentNext false false (Event.Text t) = (false, false) ∧
    remove_obsidian_comments context [Event.Text "before %%secret%%after"] =
      ([Event.Text "before after"], PostprocessorResult.Continue) := by
  refine ⟨?_, ?_, ?_⟩
  · rw [processFrom]
    simp [commentKeep, commentNext, h1, h2]
  · simp [commentNext, h1, h2]
  · rw [remove_obsidian_comments_eq]
    exact congrArg (fun l => (l, PostprocessorResult.Continue)) (by decide)

/-- Witness for C5 (amended) at the concrete inline-comment text. -/
theorem remove_obsidian_comments_inline_spec_witness :
    hasMarker "before %%secret%%after" = true ∧
    ("before %%secret%%after" == "%%") = false ∧
    processFrom false false [Event.Text "before %%secret%%after"] =
      [Event.Text (stripSpans "before %%secret%%after")] := by
  refine ⟨by decide, by decide, ?_⟩
  exact (remove_obsidian_comments_inline_spec ⟨[]⟩ "before %%secret%%after" []
    (by decide) (by decide)).1

/-- C6: the three consecutive events `%%`, `hidden`, `%%` outside a code
block are all dropped: the first opens the comment, the marker-free text
is dropped inside it, and the second marker text closes the comment and is
dropped, leaving an empty output. -/
theorem remove_obsidian_comments_three_events_spec :
    remove_obsidian_comments ⟨[]⟩
        [Event.Text "%%", Event.Text "hidden", Event.Text "%%"] =
      ([], PostprocessorResult.Continue) ∧
    commentKeep false false (Event.Text "%%") = [] ∧
    commentNext false false (Event.Text "%%") = (true, false) ∧
    commentKeep true false (Event.Text "hidden") = [] ∧
    commentNext true false (Event.Text "hidden") = (true, false) ∧
    commentKeep true false (Event.Text "%%") = [] ∧
    commentNext true false (Event.Text "%%") = (false, false) :=
  ⟨by decide, by decide, by decide, by decide, by decide, by decide, by decide⟩

/-- C7: inside a fenced code block with no comment open, a text event
containing the marker is kept completely unchanged and neither flag
changes; the concrete fence-text-fence sequence passes through the pass
untouched, both fence markers kept. -/
theorem remove_obsidian_comments_codeblock_spec (t : String) (evs : List Event)
    (h : hasMarker t = true) :
    processFrom false true (Event.Text t :: evs) =
      Event.Text t :: processFrom false true evs ∧
    commentNext false true (Event.Text t) = (false, true) ∧
    remove_obsidian_comments ⟨[]⟩
        [Event.Start (Tag.CodeBlock (CodeBlockKind.Fenced "rust")),
         Event.Text "%% not a comment %%",
         Event.End (Tag.CodeBlock (CodeBlockKind.Fenced "rust"))] =
      ([Event.Start (Tag.CodeBlock (CodeBlockKind.Fenced "rust")),
        Event.Text "%% not a comment %%",
        Event.End (Tag.CodeBlock (CodeBlockKind.Fenced "rust"))],
       PostprocessorResult.Continue) := by
  refine ⟨?_, ?_, by decide⟩
  · rw [processFrom]
    simp [commentKeep, commentNext, h]
  · simp [commentNext, h]

/-- Witness for C7 at the concrete in-code marker text. -/
theorem remove_obsidian_comments_codeblock_spec_witness :
    hasMarker "%% not a comment %%" = true ∧
    processFrom false true [Event.Text "%% not a comment %%"] =
      [Event.Text "%% not a comment %%"] := by
  refine ⟨by decide, ?_⟩
  exact (remove_obsidian_comments_codeblock_spec "%% not a comment %%" []
    (by decide)).1

/-- C8: the line-break normalizer returns `Continue`, leaves no
`SoftBreak`, its output `HardBreak` count is the original `SoftBreak` plus
`HardBreak` count, it preserves the length and maps every position in
place (other events unchanged), and applying it twice equals applying it
once. -/
theorem softbreaks_to_hardbreaks_spec (context : Context) (events : List Event) :
    (softbreaks_to_hardbreaks context events).2 = PostprocessorResult.Continue ∧
    ((softbreaks_to_hardbreaks context events).1).count Event.SoftBreak = 0 ∧
    ((softbreaks_to_hardbreaks context events).1).count Event.HardBreak =
      events.count Event.SoftBreak + events.count Event.HardBreak ∧
    ((softbreaks_to_hardbreaks context events).1).length = events.length ∧
    (∀ i : Nat, ((softbreaks_to_hardbreaks context events).1)[i]? =
      (events[i]?).map softbreakStep) ∧
    softbreakStep Event.SoftBreak = Event.HardBreak ∧
    (∀ e : Event, e ≠ Event.SoftBreak → softbreakStep e = e) ∧
    softbreaks_to_hardbreaks context ((softbreaks_to_hardbreaks context events).1) =
      softbreaks_to_hardbreaks context events := by
  refine ⟨rfl, count_map_softbreakStep_soft events,
    count_map_softbreakStep_hard events, by simp [softbreaks_to_hardbreaks],
    ?_, rfl, ?_, ?_⟩
  · intro i
    simp [softbreaks_to_hardbreaks]
  · intro e he
    cases e with
    | SoftBreak => exact absurd rfl he
    | Text t => rfl
    | HardBreak => rfl
    | Start tag => rfl
    | End tag => rfl
    | Other n => rfl
  · have hf : softbreakStep ∘ softbreakStep = softbreakStep :=
      funext softbreakStep_idem
    simp only [softbreaks_to_hardbreaks, List.map_map, hf]

/-- Witness for C8: a non-softbreak event is untouched, and on a concrete
two-event list the output hardbreak count is one. -/
theorem softbreaks_to_hardbreaks_spec_witness :
    Event.Text "a" ≠ Event.SoftBreak ∧
    softbreakStep (Event.Text "a") = Event.Text "a" ∧
    ((softbreaks_to_hardbreaks ⟨[]⟩ [Event.SoftBreak, Event.Text "a"]).1).count
      Event.HardBreak = 1 := by
  refine ⟨by decide, ?_, ?_⟩
  · exact (softbreaks_to_hardbreaks_spec ⟨[]⟩
      [Event.SoftBreak, Event.Text "a"]).2.2.2.2.2.2.1 (Event.Text "a") (by decide)
  · have h := (softbreaks_to_hardbreaks_spec ⟨[]⟩
      [Event.SoftBreak, Event.Text "a"]).2.2.1
    rw [h]
    decide

/-- C9 counterexample: a bracket-matched `table-of-contents` block loses
its Start but keeps its End under `remove_toc`, so the output is no longer
bracket-matched — the pass does not preserve Start/End pairing. -/
theorem passes_bracket_matching_cex :
    balanced
      [Event.Start (Tag.CodeBlock (CodeBlockKind.Fenced "table-of-contents")),
       Event.End (Tag.CodeBlock (CodeBlockKind.Fenced "table-of-contents"))] = true ∧
    (remove_toc ⟨[]⟩
      [Event.Start (Tag.CodeBlock (CodeBlockKind.Fenced "table-of-contents")),
       Event.End (Tag.CodeBlock (CodeBlockKind.Fenced "table-of-contents"))]).1 =
      [Event.End (Tag.CodeBlock (CodeBlockKind.Fenced "table-of-contents"))] ∧
    balanced
      [Event.End (Tag.CodeBlock (CodeBlockKind.Fenced "table-of-contents"))] = false :=
  ⟨by decide, by decide, by decide⟩

/-- C9 (amended): no pass reorders the events it keeps — the normalizer
rewrites positions in place (and does preserve bracket matching), the tag
filter leaves the events untouched, `remove_toc` emits a sublist of its
input, and the comment stripper emits its input with some events dropped
and some texts rewritten in place — but bracket matching itself is not
preserved by every pass (`remove_toc` drops the Start of a
`table-of-contents` block while keeping its End). -/
theorem passes_order_preservation_spec (context : Context) (events : List Event)
    (stk : List Tag) (S A : List String) :
    balancedAux stk ((softbreaks_to_hardbreaks context events).1) =
      balancedAux stk events ∧
    balanced ((softbreaks_to_hardbreaks context events).1) = balanced events ∧
    (filter_by_tags S A context events).1 = events ∧
    ((remove_toc context events).1).Sublist events ∧
    KeepsInOrder ((remove_obsidian_comments context events).1) events := by
  refine ⟨balancedAux_map_softbreakStep events stk,
    balancedAux_map_softbreakStep events [], ?_, ?_, ?_⟩
  · cases h : context.get "tags" with
    | none => simp [filter_by_tags, h]
    | some v => cases v <;> simp [filter_by_tags, h]
  · rw [remove_toc_eq_filter]
    exact List.filter_sublist events
  · rw [remove_obsidian_comments_eq]
    exact processFrom_keepsInOrder events false false

/-- C10: remove_toc is idempotent — applying it twice equals applying it
once, because its output is already a fixed point of the `tocKeep` filter
(no droppable Start or End marker survives the first application). -/
theorem remove_toc_idempotent_spec (context : Context) (events : List Event) :
    remove_toc context ((remove_toc context events).1) = remove_toc context events ∧
    ((remove_toc context events).1).filter tocKeep = (remove_toc context events).1 := by
  have hfix : ∀ l : List Event, (l.filter tocKeep).filter tocKeep = l.filter tocKeep := by
    intro l
    rw [List.filter_filter]
    simp
  constructor
  · rw [remove_toc_eq_filter, remove_toc_eq_filter]
    rw [hfix events]
  · rw [remove_toc_eq_filter]
    exact hfix events

end ObsidianExport
